import Mathlib

/-!
Verification of the shopfloor assistant's safety guardrails and intent
classifier.  Python strings are modelled as `List Char`; `str.lower` as a
character-wise ASCII lowering; the substring test `kw in s` as `List.IsInfix`;
`str.split()` as splitting on whitespace and dropping empty tokens; floating
point scores and confidences as rationals (all scores are small integers, so
the arithmetic is exact).  Loops with early `return`/`break` become structural
recursions over the lists they iterate.
-/

namespace ShopfloorAI

/-- Python's `str.lower()` restricted to ASCII, applied character-wise. -/
def lower (s : List Char) : List Char := s.map Char.toLower

/-! ## safety_guardrails.py -/

/-- The `SafetyLevel` enum. -/
inductive SafetyLevel where
  | ALLOWED
  | REQUIRES_CONFIRMATION
  | FORBIDDEN
deriving DecidableEq

/-- `self.forbidden_keywords`, in source order. -/
def forbidden_keywords : List (List Char) :=
  ["bypass", "disable", "remove", "ignore", "override",
   "safety", "interlock", "guard", "sensor", "alarm"].map String.toList

/-- `self.confirmation_keywords`, in source order. -/
def confirmation_keywords : List (List Char) :=
  ["emergency", "stop", "shutdown", "power off", "restart"].map String.toList

/-- `self.safety_standards`, an insertion-ordered dict. -/
def safety_standards : List (List Char × List Char) :=
  [("lockout_tagout", "OSHA 1910.147 - Lockout/Tagout"),
   ("guards", "OSHA 1910.212 - General Requirements for Safety"),
   ("ppe", "OSHA 1910 Subpart I - Personal Protective Equipment"),
   ("emergency", "ANSI Z535.1 - Safety Color Code")].map
    (fun p => (p.1.toList, p.2.toList))

/-- Dict lookup `self.safety_standards[topic]` (with `topic in` as a guard). -/
def lookupStandard (s : List Char) : Option (List Char) :=
  (safety_standards.find? (fun p => decide (p.1 = s))).map Prod.snd

/-- A single quote character, for the f-string of `check_safety`. -/
def squote : Char := Char.ofNat 39

/-- The f-string `Response contains unsafe keyword: '{keyword}'`. -/
def forbiddenMsg (k : List Char) : List Char :=
  String.toList "Response contains unsafe keyword: " ++ (squote :: (k ++ [squote]))

/-- The constant string `Emergency action requires human confirmation`. -/
def confirmationMsg : List Char :=
  String.toList "Emergency action requires human confirmation"

/-- A `for kw in ks: if kw in rl: return kw` loop: the first keyword of `ks`
occurring as a substring of `rl`, if any. -/
def scanKeywords (ks : List (List Char)) (rl : List Char) : Option (List Char) :=
  match ks with
  | [] => none
  | k :: rest => if k <:+: rl then some k else scanKeywords rest rl

/-- `SafetyGuardrails.check_safety`, translated from the source: lower the
response, scan the forbidden keywords with early return, then the
confirmation keywords, else allow. -/
def check_safety (query response : List Char) : SafetyLevel × Option (List Char) :=
  let response_lower := lower response
  match scanKeywords forbidden_keywords response_lower with
  | some k => (SafetyLevel.FORBIDDEN, some (forbiddenMsg k))
  | none =>
    match scanKeywords confirmation_keywords response_lower with
    | some _ => (SafetyLevel.REQUIRES_CONFIRMATION, some confirmationMsg)
    | none => (SafetyLevel.ALLOWED, none)

/-- The behaviour of `check_safety` as the specification words it: the first
forbidden keyword that is a substring of the lower-cased response (found by
`List.find?`) yields FORBIDDEN with a message naming that keyword; otherwise
the first matching confirmation keyword yields REQUIRES_CONFIRMATION with a
generic message that does not depend on the keyword; otherwise ALLOWED with
no explanation. -/
def check_safety_spec (query response : List Char) : SafetyLevel × Option (List Char) :=
  match forbidden_keywords.find? (fun k => decide (k <:+: lower response)) with
  | some k => (SafetyLevel.FORBIDDEN, some (forbiddenMsg k))
  | none =>
    match confirmation_keywords.find? (fun k => decide (k <:+: lower response)) with
    | some _ => (SafetyLevel.REQUIRES_CONFIRMATION, some confirmationMsg)
    | none => (SafetyLevel.ALLOWED, none)

/-- The procedural words of `sanitize_response`'s generic branch. -/
def procedural_words : List (List Char) :=
  ["procedure", "step", "do"].map String.toList

/-- The f-string `\n\nSafety Note: See {standard}`. -/
def standardNote (std : List Char) : List Char :=
  String.toList "\n\nSafety Note: See " ++ std

/-- The generic disclaimer of `sanitize_response`. -/
def genericDisclaimer : List Char :=
  String.toList "\n\nAlways follow established procedures and safety protocols."

/-- The tail of `sanitize_response` after the standards branch: append the
generic disclaimer when the lower-cased response contains a procedural word. -/
def sanitizeGeneric (response : List Char) : List Char :=
  if procedural_words.any (fun w => decide (w <:+: lower response)) then
    response ++ genericDisclaimer
  else response

/-- `SafetyGuardrails.sanitize_response`: a truthy (non-`None`, non-empty)
topic present in `safety_standards` appends a citation of the mapped standard
and returns; otherwise the generic branch runs. -/
def sanitize_response (response : List Char) (safety_topic : Option (List Char)) :
    List Char :=
  match safety_topic with
  | some s =>
    if s ≠ [] then
      match lookupStandard s with
      | some std => response ++ standardNote std
      | none => sanitizeGeneric response
    else sanitizeGeneric response
  | none => sanitizeGeneric response

/-! ## intent_classifier.py -/

/-- The `ManufacturingIntent` enum, in definition order. -/
inductive ManufacturingIntent where
  | SOP_LOOKUP
  | PRODUCTION_STATUS
  | MAINTENANCE_REQUEST
  | QUALITY_CHECK
  | SAFETY_QUERY
  | WORK_ORDER
  | PART_SEARCH
  | TRAINING
  | UNKNOWN
deriving DecidableEq, Fintype

/-- `self.intent_patterns`: the keyword triggers of each intent; intents
absent from the dict have no triggers. -/
def intent_patterns (i : ManufacturingIntent) : List (List Char) :=
  match i with
  | .SOP_LOOKUP =>
      ["show", "procedure", "steps", "how to", "instructions",
       "changeover", "setup", "operation", "guide"].map String.toList
  | .PRODUCTION_STATUS =>
      ["status", "running", "downtime", "oee", "cycle time",
       "how many", "production", "output", "rate"].map String.toList
  | .MAINTENANCE_REQUEST =>
      ["maintenance", "repair", "broken", "issue", "problem",
       "bearing", "seal", "motor", "help with"].map String.toList
  | .QUALITY_CHECK =>
      ["quality", "check", "measure", "inspect", "specification",
       "dimension", "tolerance", "defect"].map String.toList
  | .SAFETY_QUERY =>
      ["safety", "safe", "guard", "danger", "warning", "hazard",
       "ppe", "personal protective"].map String.toList
  | _ => []

/-- The iteration order of the `intent_scores` dict: every enum member, in
definition order (the dict is built by a comprehension over the enum). -/
def intentOrder : List ManufacturingIntent :=
  [.SOP_LOOKUP, .PRODUCTION_STATUS, .MAINTENANCE_REQUEST, .QUALITY_CHECK,
   .SAFETY_QUERY, .WORK_ORDER, .PART_SEARCH, .TRAINING, .UNKNOWN]

/-- The raw score of an intent on a lower-cased query: one point per trigger
keyword occurring as a substring. -/
def score (i : ManufacturingIntent) (ql : List Char) : Nat :=
  (intent_patterns i).countP (fun k => decide (k <:+: ql))

/-- `sum(intent_scores.values())`. -/
def totalScore (ql : List Char) : Nat :=
  (intentOrder.map (fun i => score i ql)).sum

/-- Python's `max(iterable, key=f)`: keep the current best, replace it only
when a later element scores strictly higher, so the first maximum wins. -/
def argmaxFirst (f : ManufacturingIntent → Nat) :
    ManufacturingIntent → List ManufacturingIntent → ManufacturingIntent
  | best, [] => best
  | best, i :: rest => argmaxFirst f (if f best < f i then i else best) rest

/-- `max(intent_scores, key=intent_scores.get)` over the dict order. -/
def bestIntent (ql : List Char) : ManufacturingIntent :=
  match intentOrder with
  | [] => .UNKNOWN
  | b :: rest => argmaxFirst (fun i => score i ql) b rest

/-- `self.entity_patterns["machine_id"]`, in source order. -/
def machine_triggers : List (List Char) :=
  ["press", "pump", "motor", "compressor", "line"].map String.toList

/-- Python's `str.split()`: split on whitespace, dropping empty tokens. -/
def words (q : List Char) : List (List Char) :=
  (q.splitOnP Char.isWhitespace).filter (fun w => !w.isEmpty)

/-- The inner token loop of `_extract_entities`: the first token containing
the trigger whose immediately following token holds a digit; that following
token is returned (the `break` leaves only this inner loop). -/
def findAfter (t : List Char) : List (List Char) → Option (List Char)
  | w :: next :: rest =>
    if t <:+: w ∧ next.any Char.isDigit then some next
    else findAfter t (next :: rest)
  | _ => none

/-- `_extract_entities` for the `machine_id` kind: iterate every trigger; a
trigger occurring in the query re-splits the query and may overwrite the
recorded value (the `break` does not leave the trigger loop). -/
def extractMachineId (ql : List Char) : Option (List Char) :=
  machine_triggers.foldl
    (fun acc t =>
      if t <:+: ql then
        match findAfter t (words ql) with
        | some v => some v
        | none => acc
      else acc)
    none

/-- The extraction as the specification words it: the first trigger that
yields a value determines the machine_id, and later triggers are not
scanned. -/
def machineIdFirstWins (ql : List Char) : Option (List Char) :=
  machine_triggers.findSome?
    (fun t => if t <:+: ql then findAfter t (words ql) else none)

/-- The clarification question computed by `classify` from the needed flag
and the best intent. -/
def clarQ (needed : Bool) (best : ManufacturingIntent) : Option (List Char) :=
  if needed then
    match best with
    | .SOP_LOOKUP => some (String.toList "Which machine or process?")
    | .MAINTENANCE_REQUEST => some (String.toList "Which equipment needs repair?")
    | _ => none
  else none

/-- The `ClassifiedIntent` dataclass; `entities` holds the optional
machine_id (the only key `_extract_entities` can set). -/
structure ClassifiedIntent where
  intent : ManufacturingIntent
  confidence : ℚ
  entities : Option (List Char)
  clarification_needed : Bool
  clarification_question : Option (List Char)

/-- `IntentClassifier.classify`, translated from the source. -/
def classify (query : List Char) : ClassifiedIntent :=
  let query_lower := lower query
  let best_intent := bestIntent query_lower
  let confidence : ℚ :=
    (score best_intent query_lower : ℚ) / ((max (totalScore query_lower) 1 : ℕ) : ℚ)
  let entities := extractMachineId query_lower
  let clarification_needed : Bool :=
    decide (confidence < 1/2) || entities.isNone
  { intent := best_intent
    confidence := min 1 confidence
    entities := entities
    clarification_needed := clarification_needed
    clarification_question := clarQ clarification_needed best_intent }

/-! ## Helper lemmas -/

theorem scanKeywords_eq_find (ks : List (List Char)) (rl : List Char) :
    scanKeywords ks rl = ks.find? (fun k => decide (k <:+: rl)) := by
  induction ks with
  | nil => rfl
  | cons k rest ih =>
    by_cases h : k <:+: rl
    · simp [scanKeywords, h]
    · simp [scanKeywords, h, ih]

theorem infix_append_of_right {x d : List Char} (r : List Char) (h : x <:+: d) :
    x <:+: r ++ d := by
  obtain ⟨s, u, rfl⟩ := h
  exact ⟨r ++ s, u, by simp [List.append_assoc]⟩

theorem infix_append_of_left {x a : List Char} (b : List Char) (h : x <:+: a) :
    x <:+: a ++ b := by
  obtain ⟨s, u, rfl⟩ := h
  exact ⟨s, u ++ b, by simp [List.append_assoc]⟩

theorem le_argmaxFirst (f : ManufacturingIntent → Nat) :
    ∀ (l : List ManufacturingIntent) (b : ManufacturingIntent),
      f b ≤ f (argmaxFirst f b l) := by
  intro l
  induction l with
  | nil => intro b; exact le_refl _
  | cons i rest ih =>
    intro b
    by_cases h : f b < f i
    · calc f b ≤ f i := le_of_lt h
        _ ≤ f (argmaxFirst f i rest) := ih i
        _ = f (argmaxFirst f b (i :: rest)) := by simp [argmaxFirst, h]
    · calc f b ≤ f (argmaxFirst f b rest) := ih b
        _ = f (argmaxFirst f b (i :: rest)) := by simp [argmaxFirst, h]

theorem argmaxFirst_mem (f : ManufacturingIntent → Nat) :
    ∀ (l : List ManufacturingIntent) (b : ManufacturingIntent),
      argmaxFirst f b l ∈ b :: l := by
  intro l
  induction l with
  | nil => intro b; exact List.mem_singleton.mpr rfl
  | cons i rest ih =>
    intro b
    by_cases h : f b < f i
    · simp only [argmaxFirst, if_pos h]
      exact List.mem_cons_of_mem b (ih i)
    · simp only [argmaxFirst, if_neg h]
      rcases List.mem_cons.mp (ih b) with h' | h'
      · exact List.mem_cons.mpr (Or.inl h')
      · exact List.mem_cons_of_mem b (List.mem_cons_of_mem i h')

theorem argmaxFirst_eq_or_lt (f : ManufacturingIntent → Nat) :
    ∀ (l : List ManufacturingIntent) (b : ManufacturingIntent),
      argmaxFirst f b l = b ∨ f b < f (argmaxFirst f b l) := by
  intro l
  induction l with
  | nil => intro b; exact Or.inl rfl
  | cons i rest ih =>
    intro b
    by_cases h : f b < f i
    · right
      have h1 : f i ≤ f (argmaxFirst f i rest) := le_argmaxFirst f rest i
      have : argmaxFirst f b (i :: rest) = argmaxFirst f i rest := by
        simp [argmaxFirst, h]
      rw [this]
      exact lt_of_lt_of_le h h1
    · have : argmaxFirst f b (i :: rest) = argmaxFirst f b rest := by
        simp [argmaxFirst, h]
      rw [this]
      exact ih b

theorem argmaxFirst_of_le (f : ManufacturingIntent → Nat) :
    ∀ (l : List ManufacturingIntent) (b : ManufacturingIntent),
      (∀ i ∈ l, f i ≤ f b) → argmaxFirst f b l = b := by
  intro l
  induction l with
  | nil => intro b _; rfl
  | cons i rest ih =>
    intro b hle
    have hi : f i ≤ f b := hle i (List.mem_cons_self i rest)
    have : ¬ f b < f i := not_lt_of_ge hi
    simp only [argmaxFirst, if_neg this]
    exact ih b (fun j hj => hle j (List.mem_cons.mpr (Or.inr hj)))

theorem argmaxFirst_split (f : ManufacturingIntent → Nat) :
    ∀ (l : List ManufacturingIntent) (b : ManufacturingIntent),
      ∃ l₁ l₂, b :: l = l₁ ++ argmaxFirst f b l :: l₂ ∧
        (∀ i ∈ l₁, f i < f (argmaxFirst f b l)) ∧
        (∀ i ∈ l₂, f i ≤ f (argmaxFirst f b l)) := by
  intro l
  induction l with
  | nil =>
    intro b
    exact ⟨[], [], rfl, by simp, by simp⟩
  | cons i rest ih =>
    intro b
    by_cases h : f b < f i
    · have hrw : argmaxFirst f b (i :: rest) = argmaxFirst f i rest := by
        simp [argmaxFirst, h]
      obtain ⟨l₁, l₂, hsplit, hlt, hle⟩ := ih i
      have hbr : f b < f (argmaxFirst f i rest) :=
        lt_of_lt_of_le h (le_argmaxFirst f rest i)
      refine ⟨b :: l₁, l₂, ?_, ?_, ?_⟩
      · rw [hrw]; simpa using congrArg (List.cons b) hsplit
      · intro j hj
        rw [hrw]
        rcases List.mem_cons.mp hj with rfl | hj'
        · exact hbr
        · exact hlt j hj'
      · intro j hj; rw [hrw]; exact hle j hj
    · have hrw : argmaxFirst f b (i :: rest) = argmaxFirst f b rest := by
        simp [argmaxFirst, h]
      obtain ⟨l₁, l₂, hsplit, hlt, hle⟩ := ih b
      cases l₁ with
      | nil =>
        have hpair : b = argmaxFirst f b rest ∧ rest = l₂ := by
          have := hsplit
          simp only [List.nil_append, List.cons.injEq] at this
          exact this
        obtain ⟨hb, hrest⟩ := hpair
        refine ⟨[], i :: rest, ?_, by simp, ?_⟩
        · rw [hrw, ← hb]; simp
        · intro j hj
          rw [hrw, ← hb]
          rcases List.mem_cons.mp hj with rfl | hj'
          · exact le_of_not_lt h
          · have := hle j (hrest ▸ hj')
            rwa [← hb] at this
      | cons x l₁' =>
        have hx : x = b := (List.head_eq_of_cons_eq hsplit).symm
        have hrest : rest = l₁' ++ argmaxFirst f b rest :: l₂ :=
          List.tail_eq_of_cons_eq hsplit
        have hblt : f b < f (argmaxFirst f b rest) := by
          have := hlt x (List.mem_cons_self x l₁')
          rwa [hx] at this
        refine ⟨b :: i :: l₁', l₂, ?_, ?_, ?_⟩
        · rw [hrw]
          simp only [List.cons_append]
          exact congrArg (List.cons b) (congrArg (List.cons i) hrest)
        · intro j hj
          rw [hrw]
          rcases List.mem_cons.mp hj with rfl | hj'
          · exact hblt
          · rcases List.mem_cons.mp hj' with rfl | hj''
            · exact lt_of_le_of_lt (le_of_not_lt h) hblt
            · have := hlt j (List.mem_cons.mpr (Or.inr hj''))
              exact this
        · intro j hj; rw [hrw]; exact hle j hj

/-! ## Claim theorems -/

/-- C1: `check_safety` scans the forbidden keywords in configured order and on
the first substring match of the lower-cased response returns FORBIDDEN with a
message naming that keyword; otherwise it scans the confirmation keywords and
on the first match returns REQUIRES_CONFIRMATION with a generic message not
naming the keyword; otherwise ALLOWED with no explanation. -/
theorem check_safety_matches_spec (q r : List Char) :
    check_safety q r = check_safety_spec q r := by
  simp only [check_safety, check_safety_spec, scanKeywords_eq_find]

/-- C2: `check_safety` depends only on the response, never on the query. -/
theorem check_safety_ignores_query (r q₁ q₂ : List Char) :
    check_safety q₁ r = check_safety q₂ r := rfl

theorem classify_intent_def (q : List Char) :
    (classify q).intent = bestIntent (lower q) := rfl

theorem classify_confidence_def (q : List Char) :
    (classify q).confidence =
      min 1 ((score (bestIntent (lower q)) (lower q) : ℚ) /
        ((max (totalScore (lower q)) 1 : ℕ) : ℚ)) := rfl

theorem classify_needed_def (q : List Char) :
    (classify q).clarification_needed =
      (decide ((score (bestIntent (lower q)) (lower q) : ℚ) /
          ((max (totalScore (lower q)) 1 : ℕ) : ℚ) < 1/2)
        || (extractMachineId (lower q)).isNone) := rfl

theorem classify_question_def (q : List Char) :
    (classify q).clarification_question =
      clarQ (classify q).clarification_needed (classify q).intent := rfl

theorem bestIntent_mem (ql : List Char) : bestIntent ql ∈ intentOrder := by
  have h := argmaxFirst_mem (fun i => score i ql)
    [.PRODUCTION_STATUS, .MAINTENANCE_REQUEST, .QUALITY_CHECK,
     .SAFETY_QUERY, .WORK_ORDER, .PART_SEARCH, .TRAINING, .UNKNOWN] .SOP_LOOKUP
  simpa [bestIntent, intentOrder] using h

theorem score_le_totalScore (ql : List Char) (i : ManufacturingIntent)
    (hi : i ∈ intentOrder) : score i ql ≤ totalScore ql := by
  have hmem : score i ql ∈ intentOrder.map (fun j => score j ql) :=
    List.mem_map.mpr ⟨i, hi, rfl⟩
  exact List.single_le_sum (fun x _ => Nat.zero_le x) _ hmem

/-- C3: the confidence `classify` returns is the selected intent's raw score
divided by the total raw score with the denominator floored at 1, clamped from
above at 1, and it always lies in the closed interval [0, 1]. -/
theorem classify_confidence_formula_and_bounds (q : List Char) :
    (classify q).confidence =
      min 1 ((score (bestIntent (lower q)) (lower q) : ℚ) /
        ((max (totalScore (lower q)) 1 : ℕ) : ℚ)) ∧
    0 ≤ (classify q).confidence ∧ (classify q).confidence ≤ 1 := by
  refine ⟨rfl, ?_, ?_⟩
  · rw [classify_confidence_def]
    have h0 : (0 : ℚ) ≤ (score (bestIntent (lower q)) (lower q) : ℚ) /
        ((max (totalScore (lower q)) 1 : ℕ) : ℚ) :=
      div_nonneg (by positivity) (by positivity)
    exact le_min zero_le_one h0
  · rw [classify_confidence_def]
    exact min_le_left _ _

/-- C4 counterexample: the empty query (which matches no trigger keyword)
does not degenerate to the UNKNOWN intent; `classify` returns SOP_LOOKUP. -/
theorem classify_empty_intent_not_unknown :
    (classify []).intent = ManufacturingIntent.SOP_LOOKUP ∧
    (classify []).intent ≠ ManufacturingIntent.UNKNOWN := by
  exact ⟨rfl, by decide⟩

/-- C4 (amended): `classify` is total, and on a query whose normalized text
contains no trigger keyword of any intent pattern, the confidence is 0 and
clarification is needed, but the returned intent is the first member of the
enumeration order, SOP_LOOKUP, not UNKNOWN. -/
theorem classify_no_trigger_degenerates (q : List Char)
    (h : ∀ i : ManufacturingIntent, ∀ k ∈ intent_patterns i, ¬ (k <:+: lower q)) :
    (classify q).intent = ManufacturingIntent.SOP_LOOKUP ∧
    (classify q).confidence = 0 ∧
    (classify q).clarification_needed = true := by
  have hscore : ∀ i : ManufacturingIntent, score i (lower q) = 0 := by
    intro i
    exact List.countP_eq_zero.mpr (by
      intro k hk
      simpa using h i k hk)
  have hbest : bestIntent (lower q) = ManufacturingIntent.SOP_LOOKUP := by
    simp only [bestIntent, intentOrder]
    exact argmaxFirst_of_le _ _ _ (by intro i _; simp [hscore])
  refine ⟨by rw [classify_intent_def, hbest], ?_, ?_⟩
  · rw [classify_confidence_def, hscore]
    norm_num
  · rw [classify_needed_def, hscore]
    norm_num

/-- C4 witness: the empty query satisfies the no-trigger hypothesis and the
amended conclusion. -/
theorem classify_no_trigger_degenerates_witness :
    (classify []).intent = ManufacturingIntent.SOP_LOOKUP ∧
    (classify []).confidence = 0 ∧
    (classify []).clarification_needed = true :=
  classify_no_trigger_degenerates [] (by decide)

/-- C5: the intent `classify` selects attains the maximum raw score and is
the first intent in the fixed enumeration order to do so: the enumeration
splits around the winner, every earlier intent scoring strictly less and
every later intent scoring no more; the function is deterministic, so the
same configuration yields the same winner on every run. -/
theorem classify_tiebreak_first_in_order (q : List Char) :
    ∃ l₁ l₂, intentOrder = l₁ ++ (classify q).intent :: l₂ ∧
      (∀ i ∈ l₁, score i (lower q) < score ((classify q).intent) (lower q)) ∧
      (∀ i ∈ l₂, score i (lower q) ≤ score ((classify q).intent) (lower q)) := by
  have h := argmaxFirst_split (fun i => score i (lower q))
    [.PRODUCTION_STATUS, .MAINTENANCE_REQUEST, .QUALITY_CHECK,
     .SAFETY_QUERY, .WORK_ORDER, .PART_SEARCH, .TRAINING, .UNKNOWN] .SOP_LOOKUP
  obtain ⟨l₁, l₂, hsplit, hlt, hle⟩ := h
  have hbest : (classify q).intent = argmaxFirst (fun i => score i (lower q))
      ManufacturingIntent.SOP_LOOKUP
      [.PRODUCTION_STATUS, .MAINTENANCE_REQUEST, .QUALITY_CHECK,
       .SAFETY_QUERY, .WORK_ORDER, .PART_SEARCH, .TRAINING, .UNKNOWN] := by
    rw [classify_intent_def]
    simp [bestIntent, intentOrder]
  refine ⟨l₁, l₂, ?_, ?_, ?_⟩
  · rw [hbest]
    calc intentOrder = ManufacturingIntent.SOP_LOOKUP ::
        [.PRODUCTION_STATUS, .MAINTENANCE_REQUEST, .QUALITY_CHECK,
         .SAFETY_QUERY, .WORK_ORDER, .PART_SEARCH, .TRAINING, .UNKNOWN] := rfl
      _ = _ := hsplit
  · intro i hi; rw [hbest]; exact hlt i hi
  · intro i hi; rw [hbest]; exact hle i hi

theorem foldl_overwrite {α β : Type} (g : α → Option β) :
    ∀ (L : List α) (acc : Option β),
      L.foldl (fun a t => (g t).or a) acc = (L.reverse.findSome? g).or acc := by
  intro L
  induction L with
  | nil => intro acc; rfl
  | cons t rest ih =>
    intro acc
    simp only [List.foldl_cons, List.reverse_cons, List.findSome?_append, ih]
    cases hres : rest.reverse.findSome? g with
    | some v => simp [Option.or]
    | none =>
      cases hgt : g t <;> simp [List.findSome?_cons, hgt, Option.or]

/-- C6 counterexample: on the query `press 5 pump 7` the code records `7`
(the value yielded by the later trigger `pump`), while first-match-wins
scanning would record `5` (from the earlier trigger `press`). -/
theorem extract_machine_id_not_first_match :
    extractMachineId (String.toList "press 5 pump 7") = some (String.toList "7") ∧
    machineIdFirstWins (String.toList "press 5 pump 7") = some (String.toList "5") ∧
    String.toList "7" ≠ String.toList "5" := by
  refine ⟨by decide, by decide, by decide⟩

/-- C6 (amended): machine-id extraction iterates the configured triggers in
order, but the early exit leaves only the inner token scan, so a later
trigger that yields a value overwrites an earlier one: the recorded
machine_id is the value of the last trigger in configured order that yields
one (within a single trigger, the first token containing the trigger whose
successor token holds a digit supplies the value). -/
theorem extract_machine_id_last_trigger_wins (ql : List Char) :
    extractMachineId ql
      = machine_triggers.reverse.findSome?
          (fun t => if t <:+: ql then findAfter t (words ql) else none) := by
  have h1 : extractMachineId ql = machine_triggers.foldl
      (fun acc t =>
        ((if t <:+: ql then findAfter t (words ql) else none).or acc)) none := by
    unfold extractMachineId
    congr 1
    funext acc t
    by_cases h : t <:+: ql
    · simp only [if_pos h]
      cases findAfter t (words ql) <;> simp [Option.or]
    · simp [h, Option.or]
  rw [h1]
  refine (foldl_overwrite
      (fun t => if t <:+: ql then findAfter t (words ql) else none)
      machine_triggers none).trans ?_
  exact Option.or_none

theorem clarQ_char (n : Bool) (b : ManufacturingIntent) :
    (clarQ n b ≠ none ↔
      (n = true ∧ (b = ManufacturingIntent.SOP_LOOKUP ∨
        b = ManufacturingIntent.MAINTENANCE_REQUEST))) ∧
    (n = true → b = ManufacturingIntent.SOP_LOOKUP →
      clarQ n b = some (String.toList "Which machine or process?")) ∧
    (n = true → b = ManufacturingIntent.MAINTENANCE_REQUEST →
      clarQ n b = some (String.toList "Which equipment needs repair?")) := by
  cases n <;> cases b <;> simp [clarQ]

/-- C7: the clarification question is non-null exactly when clarification is
needed and the selected intent is SOP lookup or maintenance request, and in
those cases its text is the fixed question of that intent. -/
theorem classify_clarification_question_rule (q : List Char) :
    ((classify q).clarification_question ≠ none ↔
      ((classify q).clarification_needed = true ∧
        ((classify q).intent = ManufacturingIntent.SOP_LOOKUP ∨
         (classify q).intent = ManufacturingIntent.MAINTENANCE_REQUEST))) ∧
    ((classify q).clarification_needed = true →
      (classify q).intent = ManufacturingIntent.SOP_LOOKUP →
      (classify q).clarification_question =
        some (String.toList "Which machine or process?")) ∧
    ((classify q).clarification_needed = true →
      (classify q).intent = ManufacturingIntent.MAINTENANCE_REQUEST →
      (classify q).clarification_question =
        some (String.toList "Which equipment needs repair?")) := by
  rw [classify_question_def]
  exact clarQ_char _ _

/-- C8: `sanitize_response` only ever appends: the original response is a
prefix of the result; a truthy topic mapped in `safety_standards` appends the
citation of the mapped standard (taking precedence over the generic branch);
otherwise a procedural word in the lower-cased response appends the generic
disclaimer; otherwise the response is returned unchanged. -/
theorem sanitize_response_appends_only (r : List Char) (t : Option (List Char)) :
    (∃ d, sanitize_response r t = r ++ d) ∧
    (∀ s std, t = some s → s ≠ [] → lookupStandard s = some std →
      sanitize_response r t = r ++ standardNote std) ∧
    ((∀ s, t = some s → s = [] ∨ lookupStandard s = none) →
      ((procedural_words.any (fun w => decide (w <:+: lower r)) = true →
          sanitize_response r t = r ++ genericDisclaimer) ∧
       (procedural_words.any (fun w => decide (w <:+: lower r)) = false →
          sanitize_response r t = r))) := by
  have hgen : (procedural_words.any (fun w => decide (w <:+: lower r)) = true →
      sanitizeGeneric r = r ++ genericDisclaimer) ∧
      (procedural_words.any (fun w => decide (w <:+: lower r)) = false →
        sanitizeGeneric r = r) := by
    constructor <;> intro hc <;> simp [sanitizeGeneric, hc]
  have hgend : ∃ d, sanitizeGeneric r = r ++ d := by
    by_cases hc : procedural_words.any (fun w => decide (w <:+: lower r)) = true
    · exact ⟨genericDisclaimer, hgen.1 hc⟩
    · exact ⟨[], by rw [hgen.2 (by simpa using hc)]; simp⟩
  cases t with
  | none =>
    refine ⟨hgend, ?_, ?_⟩
    · intro s std hts; exact absurd hts (by simp)
    · intro _; exact hgen
  | some s =>
    by_cases hs : s = []
    · subst hs
      have hred : sanitize_response r (some []) = sanitizeGeneric r := by
        simp [sanitize_response]
      rw [hred]
      refine ⟨hgend, ?_, ?_⟩
      · intro s' std hts hs' _
        exact absurd (Option.some.inj hts).symm hs'
      · intro _; exact hgen
    · cases hlk : lookupStandard s with
      | some std =>
        have hred : sanitize_response r (some s) = r ++ standardNote std := by
          simp [sanitize_response, hs, hlk]
        rw [hred]
        refine ⟨⟨standardNote std, rfl⟩, ?_, ?_⟩
        · intro s' std' hts _ hlk'
          have hss : s' = s := (Option.some.inj hts).symm
          rw [hss] at hlk'
          rw [hlk] at hlk'
          rw [Option.some.inj hlk']
        · intro hcond
          rcases hcond s rfl with h | h
          · exact absurd h hs
          · rw [hlk] at h; exact absurd h (by simp)
      | none =>
        have hred : sanitize_response r (some s) = sanitizeGeneric r := by
          simp [sanitize_response, hs, hlk]
        rw [hred]
        refine ⟨hgend, ?_, ?_⟩
        · intro s' std hts hs' hlk'
          have hss : s' = s := (Option.some.inj hts).symm
          rw [hss, hlk] at hlk'
          exact absurd hlk' (by simp)
        · intro _; exact hgen

theorem classify_unpatterned_unreachable (q : List Char) :
    ∀ i ∈ [ManufacturingIntent.WORK_ORDER, ManufacturingIntent.PART_SEARCH,
           ManufacturingIntent.TRAINING, ManufacturingIntent.UNKNOWN],
      (classify q).intent ≠ i := by
  intro i hi hEq
  have hb : (classify q).intent = argmaxFirst (fun j => score j (lower q))
      ManufacturingIntent.SOP_LOOKUP
      [.PRODUCTION_STATUS, .MAINTENANCE_REQUEST, .QUALITY_CHECK,
       .SAFETY_QUERY, .WORK_ORDER, .PART_SEARCH, .TRAINING, .UNKNOWN] := by
    rw [classify_intent_def]; simp [bestIntent, intentOrder]
  have hcase := argmaxFirst_eq_or_lt (fun j => score j (lower q))
      [.PRODUCTION_STATUS, .MAINTENANCE_REQUEST, .QUALITY_CHECK,
       .SAFETY_QUERY, .WORK_ORDER, .PART_SEARCH, .TRAINING, .UNKNOWN]
      ManufacturingIntent.SOP_LOOKUP
  rw [hb] at hEq
  rw [hEq] at hcase
  fin_cases hi <;> rcases hcase with h | h <;>
    first
      | exact absurd h (by decide)
      | exact absurd h (Nat.not_lt_zero _)

/-- C9 counterexample: some member of the intent enumeration is returned by
`classify` on no query at all: UNKNOWN is never the result, because its score
is always zero and it is the last member of the iteration order, so it can
never strictly beat the running best. -/
theorem classify_some_intent_unreachable :
    ∃ i : ManufacturingIntent, ∀ q : List Char, (classify q).intent ≠ i :=
  ⟨ManufacturingIntent.UNKNOWN,
    fun q => classify_unpatterned_unreachable q ManufacturingIntent.UNKNOWN
      (by decide)⟩

/-- C9 (amended): the five intents with explicit keyword patterns are each
returned on some query, but the four intents without patterns (work order,
part search, training, unknown) are returned on no query whatsoever: the
degenerate path returns the first enumeration member, SOP_LOOKUP, so no
"unknown/default" path can emit a pattern-less intent. -/
theorem classify_intent_reachability :
    (∀ i ∈ [ManufacturingIntent.SOP_LOOKUP, ManufacturingIntent.PRODUCTION_STATUS,
            ManufacturingIntent.MAINTENANCE_REQUEST, ManufacturingIntent.QUALITY_CHECK,
            ManufacturingIntent.SAFETY_QUERY],
        ∃ q : List Char, (classify q).intent = i) ∧
    (∀ i ∈ [ManufacturingIntent.WORK_ORDER, ManufacturingIntent.PART_SEARCH,
            ManufacturingIntent.TRAINING, ManufacturingIntent.UNKNOWN],
        ∀ q : List Char, (classify q).intent ≠ i) := by
  constructor
  · intro i hi
    fin_cases hi
    · exact ⟨String.toList "changeover", by decide⟩
    · exact ⟨String.toList "oee", by decide⟩
    · exact ⟨String.toList "repair", by decide⟩
    · exact ⟨String.toList "tolerance", by decide⟩
    · exact ⟨String.toList "hazard", by decide⟩
  · intro i hi q
    exact classify_unpatterned_unreachable q i hi

theorem check_safety_fst_eq_forbidden (q r : List Char)
    (h : ∃ k ∈ forbidden_keywords, k <:+: lower r) :
    (check_safety q r).1 = SafetyLevel.FORBIDDEN := by
  obtain ⟨k, hk, hinf⟩ := h
  have hsome : (forbidden_keywords.find? (fun k => decide (k <:+: lower r))).isSome :=
    List.find?_isSome.mpr ⟨k, hk, by simpa using hinf⟩
  obtain ⟨k', hk'⟩ := Option.isSome_iff_exists.mp hsome
  simp [check_safety, scanKeywords_eq_find, hk']

theorem check_safety_append_forbidden (q r d : List Char)
    (hd : String.toList "safety" <:+: lower d) :
    (check_safety q (r ++ d)).1 = SafetyLevel.FORBIDDEN := by
  apply check_safety_fst_eq_forbidden
  refine ⟨String.toList "safety", by decide, ?_⟩
  unfold lower
  rw [List.map_append]
  exact infix_append_of_right _ hd

theorem check_generic_forbidden (q r : List Char) (h : sanitizeGeneric r ≠ r) :
    (check_safety q (sanitizeGeneric r)).1 = SafetyLevel.FORBIDDEN := by
  by_cases hc : procedural_words.any (fun w => decide (w <:+: lower r)) = true
  · have hred : sanitizeGeneric r = r ++ genericDisclaimer := by
      simp [sanitizeGeneric, hc]
    rw [hred]
    exact check_safety_append_forbidden q r genericDisclaimer (by decide)
  · have hred : sanitizeGeneric r = r := by simp [sanitizeGeneric, hc]
    exact absurd hred h

/-- C10: whenever `sanitize_response` changes the response (that is, appends
either disclaimer), gating the sanitized response through `check_safety`
returns FORBIDDEN, because both disclaimers contain the forbidden keyword
`safety` once lower-cased: sanitizing before gating can never deliver an
annotated response. -/
theorem sanitize_then_check_safety_forbidden (q r : List Char)
    (t : Option (List Char)) (h : sanitize_response r t ≠ r) :
    (check_safety q (sanitize_response r t)).1 = SafetyLevel.FORBIDDEN := by
  cases t with
  | none => exact check_generic_forbidden q r h
  | some s =>
    by_cases hs : s = []
    · subst hs
      have hred : sanitize_response r (some []) = sanitizeGeneric r := by
        simp [sanitize_response]
      rw [hred] at h ⊢
      exact check_generic_forbidden q r h
    · cases hlk : lookupStandard s with
      | some std =>
        have hred : sanitize_response r (some s) = r ++ standardNote std := by
          simp [sanitize_response, hs, hlk]
        rw [hred]
        apply check_safety_append_forbidden
        unfold standardNote lower
        rw [List.map_append]
        exact infix_append_of_left _ (by decide)
      | none =>
        have hred : sanitize_response r (some s) = sanitizeGeneric r := by
          simp [sanitize_response, hs, hlk]
        rw [hred] at h ⊢
        exact check_generic_forbidden q r h

/-- C10 witness: the response `step 1` takes the generic branch, and the
sanitized response is gated FORBIDDEN. -/
theorem sanitize_then_check_safety_forbidden_witness :
    (check_safety [] (sanitize_response (String.toList "step 1") none)).1
      = SafetyLevel.FORBIDDEN :=
  sanitize_then_check_safety_forbidden [] (String.toList "step 1") none (by decide)

end ShopfloorAI
